import Mathlib

/-!
Verification of the `bevy_reactive_font` repository.

The development shallowly embeds the two parts of the repository that the
checked properties are about:

* `src/persistent_relationship_source.rs`: the `NeverEmptyVec` relationship
  source collection (a `Vec<Entity>` whose `is_empty` query lies), embedded as
  operations on `List Entity`;
* `src/plugin.rs` together with the component vocabulary of `src/font.rs`:
  the resolution observers `update_font`, `update_font_size`,
  `update_font_color` and the batch scheduling systems, embedded as functions
  over an explicit `World` record.

Entities are identifiers (`Nat`).  Font asset handles are opaque values that
the engine only stores, clones and compares, so they are embedded as `Nat`.
`f32` sizes and `Color` values are likewise only copied, never computed with,
so they are embedded as `Int` and `Nat` respectively.
-/

namespace BevyReactiveFont

/-- Entity identifiers. -/
abbrev Entity := Nat

/-- Opaque `Handle<Font>` asset handles: stored, cloned and compared only. -/
abbrev FontHandle := Nat

/-- Opaque colour values: stored and copied only. -/
abbrev ColorVal := Nat

/-!
## NeverEmptyVec (`src/persistent_relationship_source.rs`)

The backing store is a `Vec<Entity>`, embedded as a `List Entity`.  Each
`nev…` definition below embeds the corresponding method of the
`RelationshipSourceCollection` / `OrderedRelationshipSourceCollection`
implementations for `NeverEmptyVec<Entity>`.
-/

/-- Embeds `Iterator::position`: index of the first element equal to `e`. -/
def positionOf (l : List Entity) (e : Entity) : Option Nat :=
  match l with
  | [] => none
  | x :: xs => if x = e then some 0 else (positionOf xs e).map (· + 1)

/-- Slice `swap` of two in-bounds indices.  Out-of-bounds indices leave the
list unchanged; every call site below is in bounds. -/
def listSwap (l : List Entity) (i j : Nat) : List Entity :=
  match l[i]?, l[j]? with
  | some a, some b => (l.set i b).set j a
  | _, _ => l

/-- Embeds `NeverEmptyVec::add`: `Vec::push`. -/
def nevAdd (l : List Entity) (e : Entity) : List Entity := l ++ [e]

/-- Embeds `NeverEmptyVec::remove`: find the position of the first match and
`Vec::remove` there; no match leaves the vector unchanged. -/
def nevRemove (l : List Entity) (e : Entity) : List Entity :=
  match positionOf l e with
  | some i => l.eraseIdx i
  | none => l

/-- Embeds `NeverEmptyVec::len`. -/
def nevLen (l : List Entity) : Nat := l.length

/-- Embeds `NeverEmptyVec::clear`. -/
def nevClear (_ : List Entity) : List Entity := []

/-- Embeds `NeverEmptyVec::shrink_to_fit`: capacity only, no content change. -/
def nevShrink (l : List Entity) : List Entity := l

/-- Embeds `NeverEmptyVec::extend_from_iter`: `Vec::extend`. -/
def nevExtend (l : List Entity) (es : List Entity) : List Entity := l ++ es

/-- Embeds `NeverEmptyVec::is_empty`: unconditionally `false`. -/
def nevIsEmpty (_ : List Entity) : Bool := false

/-- Embeds `NeverEmptyVec::insert` (swap variant): push, then swap the new last
element with position `index` when `index < len`. -/
def nevInsert (l : List Entity) (i : Nat) (e : Entity) : List Entity :=
  let pushed := l ++ [e]
  if i < pushed.length then listSwap pushed i (pushed.length - 1) else pushed

/-- Embeds `NeverEmptyVec::remove_at`: `(index < len).then(|| swap_remove(index))`;
`swap_remove` replaces the element with the last one and pops. -/
def nevRemoveAt (l : List Entity) (i : Nat) : Option Entity × List Entity :=
  if i < l.length then
    (l[i]?, (listSwap l i (l.length - 1)).dropLast)
  else (none, l)

/-- Embeds `NeverEmptyVec::insert_stable`: `Vec::insert` when in range, else push. -/
def nevInsertStable (l : List Entity) (i : Nat) (e : Entity) : List Entity :=
  if i < l.length then List.insertIdx i e l else l ++ [e]

/-- Embeds `NeverEmptyVec::remove_at_stable`: `(index < len).then(|| remove(index))`. -/
def nevRemoveAtStable (l : List Entity) (i : Nat) : Option Entity × List Entity :=
  if i < l.length then (l[i]?, l.eraseIdx i) else (none, l)

/-- Embeds `NeverEmptyVec::sort`: `sort_unstable` sorts ascending; on identifiers the
sorted permutation is unique, so a stable sort embeds it faithfully. -/
def nevSort (l : List Entity) : List Entity :=
  List.insertionSort (fun a b => a ≤ b) l

/-- Embeds the loop of `slice::binary_search_by` as driven by
`partition_point`: the comparator returns Less exactly when the predicate
holds, never Equal, so the search always ends at `Err(left)`.  The bounds
step is the std loop `mid = left + (right - left) / 2`; `left` becomes
`mid + 1` on Less and `right` becomes `mid` on Greater.  The interval shrinks
by at least one element per iteration, so the structural `fuel` of the
wrapper (`len + 1`) is never exhausted; the fuel-0 branch mirrors the loop
exit and is unreachable from `partitionPoint`. -/
def partitionPointGo (pred : Entity → Bool) (l : List Entity) :
    Nat → Nat → Nat → Nat
  | 0, left, _ => left
  | fuel + 1, left, right =>
    if left < right then
      if pred (l.getD (left + (right - left) / 2) 0) then
        partitionPointGo pred l fuel (left + (right - left) / 2 + 1) right
      else partitionPointGo pred l fuel left (left + (right - left) / 2)
    else left

/-- Embeds `[T]::partition_point(pred)`: a binary search over the whole
slice.  On a partitioned slice it returns the number of leading elements
satisfying the predicate; on a non-partitioned slice it returns whatever
index the probe sequence reaches. -/
def partitionPoint (pred : Entity → Bool) (l : List Entity) : Nat :=
  partitionPointGo pred l (l.length + 1) 0 l.length

/-- Embeds `NeverEmptyVec::insert_sorted`: `partition_point(|e| e <= entity)`
(a binary search), then `insert_stable` at the returned index. -/
def nevInsertSorted (l : List Entity) (e : Entity) : List Entity :=
  nevInsertStable l (partitionPoint (fun x => x ≤ e) l) e

/-- Embeds `NeverEmptyVec::place_most_recent`: pop the last element; clamp the index
to the remaining length; swap-insert it back. -/
def nevPlaceMostRecent (l : List Entity) (i : Nat) : List Entity :=
  match l.getLast? with
  | some x => nevInsert l.dropLast (min i l.dropLast.length) x
  | none => l

/-- Embeds `NeverEmptyVec::place`: position of the entity; clamp the index to the
current length; `Vec::remove` it; swap-insert it back. -/
def nevPlace (l : List Entity) (e : Entity) (i : Nat) : List Entity :=
  match positionOf l e with
  | some cur => nevInsert (l.eraseIdx cur) (min i l.length) e
  | none => l

/-!
## Reference dynamic-array model

The model operations follow the specification text for the contract of the
collection: "add (append), remove-by-value (first match, shifts down),
indexed insert/remove (swap and stable variants), bulk extend, clear, shrink,
sort, insert keeping sorted order, move element already present to a new
index, move most-recently-added element to a given index".
-/

/-- Model: append. -/
def modelAdd (l : List Entity) (e : Entity) : List Entity := l ++ [e]

/-- Model: remove the first match, shifting later elements down. -/
def modelRemove : List Entity → Entity → List Entity
  | [], _ => []
  | x :: xs, e => if x = e then xs else x :: modelRemove xs e

/-- Model swap insert: the entity lands at the index, the displaced element
moves to the end; an out-of-range index appends. -/
def modelInsertSwap (l : List Entity) (i : Nat) (e : Entity) : List Entity :=
  if h : i < l.length then (l.set i e) ++ [l[i]] else l ++ [e]

/-- Model swap remove: return the element at the index and move the last
element into its place; `none` when out of range. -/
def modelRemoveAt (l : List Entity) (i : Nat) : Option Entity × List Entity :=
  if h : i < l.length then (some l[i], l.dropLast.set i (l.getLastD 0))
  else (none, l)

/-- Model stable insert: order preserving; an out-of-range index appends. -/
def modelInsertStable (l : List Entity) (i : Nat) (e : Entity) : List Entity :=
  if i ≤ l.length then List.insertIdx i e l else l ++ [e]

/-- Model stable remove: delete at the index, shifting later elements down;
`none` when out of range. -/
def modelRemoveAtStable (l : List Entity) (i : Nat) : Option Entity × List Entity :=
  (l[i]?, l.eraseIdx i)

/-- Model: append all. -/
def modelExtend (l : List Entity) (es : List Entity) : List Entity := l ++ es

/-- Model: the empty collection. -/
def modelClear (_ : List Entity) : List Entity := []

/-- Model: content is unchanged by a capacity shrink. -/
def modelShrink (l : List Entity) : List Entity := l

/-- Model: sort ascending. -/
def modelSort (l : List Entity) : List Entity :=
  List.insertionSort (fun a b => a ≤ b) l

/-- Model: insert after the leading elements that are at most `e`; on a sorted
list this keeps the list sorted. -/
def modelInsertSorted (l : List Entity) (e : Entity) : List Entity :=
  l.takeWhile (fun x => x ≤ e) ++ e :: l.dropWhile (fun x => x ≤ e)

/-- Model: move the last-added element to the clamped index, using the swap
insert primitive of this collection. -/
def modelPlaceMostRecent (l : List Entity) (i : Nat) : List Entity :=
  match l.getLast? with
  | some x => modelInsertSwap l.dropLast (min i (l.length - 1)) x
  | none => l

/-- Model: move a present element to the clamped index, using the swap insert
primitive of this collection; an absent entity leaves the list unchanged. -/
def modelPlace (l : List Entity) (e : Entity) (i : Nat) : List Entity :=
  if l.contains e then modelInsertSwap (l.erase e) (min i l.length) e else l

/-- One abstract operation on the collection. -/
inductive NevOp where
  | add (e : Entity)
  | remove (e : Entity)
  | insertSwap (i : Nat) (e : Entity)
  | removeAtSwap (i : Nat)
  | insertStable (i : Nat) (e : Entity)
  | removeAtStable (i : Nat)
  | extendAll (es : List Entity)
  | clearAll
  | shrink
  | sortAll
  | insertSorted (e : Entity)
  | place (e : Entity) (i : Nat)
  | placeMostRecent (i : Nat)
deriving DecidableEq

/-- Run one `NeverEmptyVec` operation (as the source implements it). -/
def nevApply (l : List Entity) : NevOp → List Entity
  | .add e => nevAdd l e
  | .remove e => nevRemove l e
  | .insertSwap i e => nevInsert l i e
  | .removeAtSwap i => (nevRemoveAt l i).2
  | .insertStable i e => nevInsertStable l i e
  | .removeAtStable i => (nevRemoveAtStable l i).2
  | .extendAll es => nevExtend l es
  | .clearAll => nevClear l
  | .shrink => nevShrink l
  | .sortAll => nevSort l
  | .insertSorted e => nevInsertSorted l e
  | .place e i => nevPlace l e i
  | .placeMostRecent i => nevPlaceMostRecent l i

/-- Run one operation of the reference dynamic-array model. -/
def modelApply (l : List Entity) : NevOp → List Entity
  | .add e => modelAdd l e
  | .remove e => modelRemove l e
  | .insertSwap i e => modelInsertSwap l i e
  | .removeAtSwap i => (modelRemoveAt l i).2
  | .insertStable i e => modelInsertStable l i e
  | .removeAtStable i => (modelRemoveAtStable l i).2
  | .extendAll es => modelExtend l es
  | .clearAll => modelClear l
  | .shrink => modelShrink l
  | .sortAll => modelSort l
  | .insertSorted e => modelInsertSorted l e
  | .place e i => modelPlace l e i
  | .placeMostRecent i => modelPlaceMostRecent l i

/-- Run a sequence of source operations from the initially empty collection. -/
def nevRunOps (ops : List NevOp) : List Entity := ops.foldl nevApply []

/-- Run a sequence of model operations from the initially empty collection. -/
def modelRunOps (ops : List NevOp) : List Entity := ops.foldl modelApply []

/-!
## The resolution engine (`src/plugin.rs`, vocabulary from `src/font.rs`)

The world holds the component stores the systems query.  Component presence is
an `Option`; tag components (`ReactiveFont`, `Bold`, `Italic`,
`FontCollection`) are presence booleans.  `TextFont` carries the two fields
the engine writes (`font`, `font_size`); `TextColor` carries one colour.
-/

/-- The two fields of `TextFont` that the engine writes. -/
structure TextFontData where
  font : FontHandle
  fontSize : Int
  deriving DecidableEq

/-- The mutable ECS state the embedded systems read and write. -/
structure World where
  entities : List Entity
  reactiveFont : Entity → Bool
  textFont : Entity → Option TextFontData
  textColor : Entity → Option ColorVal
  boldTag : Entity → Bool
  italicTag : Entity → Bool
  fontSize : Entity → Option Int
  fontColor : Entity → Option ColorVal
  usingFont : Entity → Option Entity
  fontCollection : Entity → Bool
  regularFont : Entity → Option FontHandle
  italicFont : Entity → Option FontHandle
  boldFont : Entity → Option FontHandle
  boldItalicFont : Entity → Option FontHandle
  defaultFontSize : Entity → Option Int
  defaultFontColor : Entity → Option ColorVal
  usedBy : Entity → Option (List Entity)
  defaultFont : Option Entity

/-- Embeds `QueryEntityError`: either the entity is gone from the world, or it exists
but does not match the query's component shape. -/
inductive QueryEntityError where
  | entityDoesNotExist (e : Entity)
  | queryDoesNotMatch (e : Entity)
  deriving DecidableEq

/-- The error enum of `src/error.rs`. -/
inductive FontError where
  | cannotFindFont (text : Entity)
  | invalidFont (text : Entity) (err : QueryEntityError)
  | invalidReactiveFont (text : Entity) (err : QueryEntityError)
  deriving DecidableEq

/-- Embeds `Query::get` for `(&mut TextFont, Has<Italic>, Has<Bold>,
Option<&UsingFont>)` — the row type of `update_font`.  Note the source query
has no `With<ReactiveFont>` filter. -/
def queryReactiveFontRow (w : World) (e : Entity) :
    Except QueryEntityError (TextFontData × Bool × Bool × Option Entity) :=
  if w.entities.contains e then
    match w.textFont e with
    | some tf => .ok (tf, w.italicTag e, w.boldTag e, w.usingFont e)
    | none => .error (.queryDoesNotMatch e)
  else .error (.entityDoesNotExist e)

/-- Embeds `Query::get` for `((&RegularFont, &ItalicFont, &BoldFont,
&BoldItalicFont), With<FontCollection>)`. -/
def queryFontCollectionRow (w : World) (e : Entity) :
    Except QueryEntityError (FontHandle × FontHandle × FontHandle × FontHandle) :=
  if w.entities.contains e then
    match w.fontCollection e, w.regularFont e, w.italicFont e, w.boldFont e,
        w.boldItalicFont e with
    | true, some r, some it, some b, some bi => .ok (r, it, b, bi)
    | _, _, _, _, _ => .error (.queryDoesNotMatch e)
  else .error (.entityDoesNotExist e)

/-- Embeds `Query::get` for `(&mut TextFont, Option<&FontSize>, Option<&UsingFont>)`
— the row type of `update_font_size`. -/
def querySizeRow (w : World) (e : Entity) :
    Except QueryEntityError (TextFontData × Option Int × Option Entity) :=
  if w.entities.contains e then
    match w.textFont e with
    | some tf => .ok (tf, w.fontSize e, w.usingFont e)
    | none => .error (.queryDoesNotMatch e)
  else .error (.entityDoesNotExist e)

/-- Embeds `Query::get` for `(&DefaultFontSize, With<FontCollection>)`. -/
def queryDefaultSizeRow (w : World) (e : Entity) :
    Except QueryEntityError Int :=
  if w.entities.contains e then
    match w.fontCollection e, w.defaultFontSize e with
    | true, some d => .ok d
    | _, _ => .error (.queryDoesNotMatch e)
  else .error (.entityDoesNotExist e)

/-- Embeds `Query::get` for `(&mut TextColor, Option<&FontColor>, Option<&UsingFont>)`
— the row type of `update_font_color`. -/
def queryColorRow (w : World) (e : Entity) :
    Except QueryEntityError (ColorVal × Option ColorVal × Option Entity) :=
  if w.entities.contains e then
    match w.textColor e with
    | some c => .ok (c, w.fontColor e, w.usingFont e)
    | none => .error (.queryDoesNotMatch e)
  else .error (.entityDoesNotExist e)

/-- Embeds `Query::get` for `(&DefaultFontColor, With<FontCollection>)`. -/
def queryDefaultColorRow (w : World) (e : Entity) :
    Except QueryEntityError ColorVal :=
  if w.entities.contains e then
    match w.fontCollection e, w.defaultFontColor e with
    | true, some d => .ok d
    | _, _ => .error (.queryDoesNotMatch e)
  else .error (.entityDoesNotExist e)

/-- Write the target's `TextFont` component. -/
def World.setTextFont (w : World) (e : Entity) (tf : TextFontData) : World :=
  { w with textFont := fun x => if x = e then some tf else w.textFont x }

/-- Write the target's `TextColor` component. -/
def World.setTextColor (w : World) (e : Entity) (c : ColorVal) : World :=
  { w with textColor := fun x => if x = e then some c else w.textColor x }

/-- Embeds `using_font.map(UsingFont::get).or(default_font.map(|font| font.0))`. -/
def effectiveFont (uf : Option Entity) (df : Option Entity) : Option Entity :=
  match uf with
  | some c => some c
  | none => df

/-- The `update_font` observer.  The returned world is the written state; an
error writes nothing (in the source every fallible step precedes the single
write `text_font.font = font.clone()`), and the despawned-target skip returns
the world unchanged. -/
def update_font (w : World) (target : Entity) : Except FontError World :=
  match queryReactiveFontRow w target with
  | .error (.entityDoesNotExist _) => .ok w
  | .error err => .error (.invalidReactiveFont target err)
  | .ok (tf, isItalic, isBold, usingFont) =>
    match effectiveFont usingFont w.defaultFont with
    | none => .error (.cannotFindFont target)
    | some currentFont =>
      match queryFontCollectionRow w currentFont with
      | .error err => .error (.invalidFont target err)
      | .ok (regularF, italicF, boldF, boldItalicF) =>
        let font :=
          match isItalic, isBold with
          | true, true => boldItalicF
          | true, _ => italicF
          | _, true => boldF
          | _, _ => regularF
        .ok (w.setTextFont target { tf with font := font })

/-- The `update_font_size` observer: the override wins, else the resolved
collection's default size. -/
def update_font_size (w : World) (target : Entity) : Except FontError World :=
  match querySizeRow w target with
  | .error (.entityDoesNotExist _) => .ok w
  | .error err => .error (.invalidReactiveFont target err)
  | .ok (tf, fontSize, usingFont) =>
    match effectiveFont usingFont w.defaultFont with
    | none => .error (.cannotFindFont target)
    | some currentFont =>
      match queryDefaultSizeRow w currentFont with
      | .error err => .error (.invalidFont target err)
      | .ok d =>
        .ok (w.setTextFont target { tf with fontSize := fontSize.getD d })

/-- The `update_font_color` observer: the override wins, else the resolved
collection's default colour. -/
def update_font_color (w : World) (target : Entity) : Except FontError World :=
  match queryColorRow w target with
  | .error (.entityDoesNotExist _) => .ok w
  | .error err => .error (.invalidReactiveFont target err)
  | .ok (_, fontColor, usingFont) =>
    match effectiveFont usingFont w.defaultFont with
    | none => .error (.cannotFindFont target)
    | some currentFont =>
      match queryDefaultColorRow w currentFont with
      | .error err => .error (.invalidFont target err)
      | .ok d => .ok (w.setTextColor target (fontColor.getD d))

/-!
### Batch scheduling systems

Each scheduling system is embedded as the list of `(entity, event)` triggers
it emits.  Change detection belongs to the host runtime, so a system keyed on
`Changed<...>` components takes the list of entities its `Populated` query
matches as a parameter; an empty list embeds the cycle in which no such
component changed (the `Populated` parameter then fails validation and the
system is skipped, emitting nothing).
-/

/-- The three entity-targeted events of `src/plugin.rs`. -/
inductive UpdateEvent where
  | updateFont
  | updateFontSize
  | updateFontColor
  deriving DecidableEq

/-- Entities matched by `Query<Entity, (With<ReactiveFont>, Without<UsingFont>)>`. -/
def reactiveWithoutUsing (w : World) : List Entity :=
  w.entities.filter (fun e => w.reactiveFont e && (w.usingFont e).isNone)

/-- Embeds `default_font_changed`, run under
`run_if(resource_exists_and_changed::<DefaultFont>)`: it triggers only
`UpdateFont` for every `ReactiveFont` entity without a `UsingFont`. -/
def default_font_changed (w : World) : List (Entity × UpdateEvent) :=
  (reactiveWithoutUsing w).map (fun e => (e, UpdateEvent.updateFont))

/-- Embeds `font_handle_changed`; `changed` is the list of entities matched by
`Populated<&UsedBy, Or<(Changed<RegularFont>, Changed<BoldFont>,
Changed<ItalicFont>, Changed<BoldItalicFont>)>>`. -/
def font_handle_changed (w : World) (changed : List Entity) :
    List (Entity × UpdateEvent) :=
  (if (match w.defaultFont with
      | some d => changed.contains d
      | none => false) then
    (reactiveWithoutUsing w).map (fun e => (e, UpdateEvent.updateFont))
  else []) ++
  changed.flatMap (fun c =>
    ((w.usedBy c).getD []).map (fun e => (e, UpdateEvent.updateFont)))

/-- Embeds `default_font_size_changed`; `changed` is the list of entities matched by
`Populated<&UsedBy, Changed<DefaultFontSize>>`. -/
def default_font_size_changed (w : World) (changed : List Entity) :
    List (Entity × UpdateEvent) :=
  (if (match w.defaultFont with
      | some d => changed.contains d
      | none => false) then
    (reactiveWithoutUsing w).map (fun e => (e, UpdateEvent.updateFontSize))
  else []) ++
  changed.flatMap (fun c =>
    ((w.usedBy c).getD []).map (fun e => (e, UpdateEvent.updateFontSize)))

/-- Embeds `default_font_color_changed`; `changed` is the list of entities matched by
`Populated<&UsedBy, Changed<DefaultFontColor>>`. -/
def default_font_color_changed (w : World) (changed : List Entity) :
    List (Entity × UpdateEvent) :=
  (if (match w.defaultFont with
      | some d => changed.contains d
      | none => false) then
    (reactiveWithoutUsing w).map (fun e => (e, UpdateEvent.updateFontColor))
  else []) ++
  changed.flatMap (fun c =>
    ((w.usedBy c).getD []).map (fun e => (e, UpdateEvent.updateFontColor)))

/-- Everything the `Update` schedule raises in the cycle in which the
`DefaultFont` resource was replaced and no component value changed: the three
`Populated`-keyed systems see empty change sets, and no structural observer
(`On<Add, _>` / `On<Remove, _>`) fires because replacing a resource adds or
removes no component. -/
def engineScheduleOnDefaultReplaced (w : World) : List (Entity × UpdateEvent) :=
  default_font_changed w ++ font_handle_changed w [] ++
    default_font_size_changed w [] ++ default_font_color_changed w []

/-!
### Concrete worlds used by counterexamples and witnesses
-/

/-- A text entity 1 without the `ReactiveFont` tag, referencing font
collection 2 via `UsingFont` and listed in collection 2's `UsedBy`. -/
def wUntagged : World where
  entities := [1, 2]
  reactiveFont := fun _ => false
  textFont := fun e => if e = 1 then some ⟨0, 12⟩ else none
  textColor := fun e => if e = 1 then some 0 else none
  boldTag := fun _ => false
  italicTag := fun _ => false
  fontSize := fun _ => none
  fontColor := fun _ => none
  usingFont := fun e => if e = 1 then some 2 else none
  fontCollection := fun e => e == 2
  regularFont := fun e => if e = 2 then some 5 else none
  italicFont := fun e => if e = 2 then some 6 else none
  boldFont := fun e => if e = 2 then some 7 else none
  boldItalicFont := fun e => if e = 2 then some 8 else none
  defaultFontSize := fun e => if e = 2 then some 15 else none
  defaultFontColor := fun e => if e = 2 then some 0 else none
  usedBy := fun e => if e = 2 then some [1] else none
  defaultFont := none

/-- A `ReactiveFont` text entity 1 with no `UsingFont` and no overrides; the
`DefaultFont` registry was just replaced to point at collection 3 (handle 21,
default size 30, default colour 9). -/
def wDefaultSwap : World where
  entities := [1, 3]
  reactiveFont := fun e => e == 1
  textFont := fun e => if e = 1 then some ⟨0, 12⟩ else none
  textColor := fun e => if e = 1 then some 0 else none
  boldTag := fun _ => false
  italicTag := fun _ => false
  fontSize := fun _ => none
  fontColor := fun _ => none
  usingFont := fun _ => none
  fontCollection := fun e => e == 3
  regularFont := fun e => if e = 3 then some 21 else none
  italicFont := fun e => if e = 3 then some 22 else none
  boldFont := fun e => if e = 3 then some 23 else none
  boldItalicFont := fun e => if e = 3 then some 24 else none
  defaultFontSize := fun e => if e = 3 then some 30 else none
  defaultFontColor := fun e => if e = 3 then some 9 else none
  usedBy := fun e => if e = 3 then some [] else none
  defaultFont := some 3

/-- A fully styled `ReactiveFont` text entity 1 (Bold and Italic tags, size
and colour overrides) referencing collection 2. -/
def wStyled : World where
  entities := [1, 2]
  reactiveFont := fun e => e == 1
  textFont := fun e => if e = 1 then some ⟨0, 12⟩ else none
  textColor := fun e => if e = 1 then some 3 else none
  boldTag := fun e => e == 1
  italicTag := fun e => e == 1
  fontSize := fun e => if e = 1 then some 25 else none
  fontColor := fun e => if e = 1 then some 4 else none
  usingFont := fun e => if e = 1 then some 2 else none
  fontCollection := fun e => e == 2
  regularFont := fun e => if e = 2 then some 5 else none
  italicFont := fun e => if e = 2 then some 6 else none
  boldFont := fun e => if e = 2 then some 7 else none
  boldItalicFont := fun e => if e = 2 then some 8 else none
  defaultFontSize := fun e => if e = 2 then some 20 else none
  defaultFontColor := fun e => if e = 2 then some 9 else none
  usedBy := fun e => if e = 2 then some [1] else none
  defaultFont := none

theorem nevRemove_eq (l : List Entity) (e : Entity) :
    nevRemove l e = modelRemove l e := by
  induction l with
  | nil => rfl
  | cons x xs ih =>
    by_cases hx : x = e
    · simp [nevRemove, positionOf, hx, modelRemove]
    · simp only [nevRemove, positionOf, hx, if_neg, ite_false, modelRemove]
      cases hp : positionOf xs e with
      | none =>
        simp only [hp, Option.map_none']
        have : nevRemove xs e = xs := by simp [nevRemove, hp]
        rw [← ih, this]
      | some j =>
        simp only [hp, Option.map_some', List.eraseIdx_cons_succ]
        have : nevRemove xs e = xs.eraseIdx j := by simp [nevRemove, hp]
        rw [← ih, this]

theorem set_concat_left (l : List Entity) (e v : Entity) (i : Nat)
    (h : i < l.length) : (l ++ [e]).set i v = l.set i v ++ [e] := by
  rw [List.set_append, if_pos h]

theorem set_concat_length (l : List Entity) (e v : Entity) :
    (l ++ [e]).set l.length v = l ++ [v] := by
  rw [List.set_append, if_neg (by omega)]
  simp

theorem listSwap_eq (l : List Entity) (i j : Nat) (a b : Entity)
    (ha : l[i]? = some a) (hb : l[j]? = some b) :
    listSwap l i j = (l.set i b).set j a := by
  unfold listSwap
  rw [ha, hb]

theorem nevInsert_eq (l : List Entity) (i : Nat) (e : Entity) :
    nevInsert l i e = modelInsertSwap l i e := by
  unfold nevInsert modelInsertSwap
  simp only [List.length_append, List.length_singleton]
  by_cases h1 : i < l.length
  · rw [if_pos (by omega), dif_pos h1]
    have hgi : (l ++ [e])[i]? = some l[i] := by
      rw [List.getElem?_append_left h1, List.getElem?_eq_getElem h1]
    have hgn : (l ++ [e])[l.length + 1 - 1]? = some e := by
      have : l.length + 1 - 1 = l.length := by omega
      rw [this, List.getElem?_concat_length]
    rw [listSwap_eq (l ++ [e]) i (l.length + 1 - 1) l[i] e hgi hgn]
    have : l.length + 1 - 1 = l.length := by omega
    rw [this, set_concat_left l e e i h1, List.set_append,
      if_neg (by rw [List.length_set]; omega)]
    rw [List.length_set, Nat.sub_self]
    rfl
  · by_cases h2 : i = l.length
    · subst h2
      rw [if_pos (by omega), dif_neg h1]
      have hgn : (l ++ [e])[l.length]? = some e := List.getElem?_concat_length l e
      have : l.length + 1 - 1 = l.length := by omega
      rw [this, listSwap_eq (l ++ [e]) l.length l.length e e hgn hgn]
      rw [set_concat_length, set_concat_length]
    · rw [if_neg (by omega), dif_neg h1]

theorem dropLast_set (l : List Entity) (i : Nat) (v : Entity) :
    (l.set i v).dropLast = l.dropLast.set i v := by
  apply List.ext_getElem?
  intro n
  simp only [List.getElem?_dropLast, List.getElem?_set, List.length_set,
    List.length_dropLast]
  by_cases hin : i = n
  · subst hin
    by_cases hn : i < l.length - 1
    · rw [if_pos hn, if_pos rfl, if_pos rfl, if_pos (by omega), if_pos hn]
    · rw [if_neg hn, if_pos rfl, if_neg hn]
  · by_cases hn : n < l.length - 1
    · rw [if_pos hn, if_neg hin, if_neg hin, if_pos hn]
    · rw [if_neg hn, if_neg hin, if_neg hn]

theorem nevRemoveAt_eq (l : List Entity) (i : Nat) :
    nevRemoveAt l i = modelRemoveAt l i := by
  unfold nevRemoveAt modelRemoveAt
  by_cases h : i < l.length
  · rw [if_pos h, dif_pos h]
    have hlast : l.length - 1 < l.length := by omega
    have hgi : l[i]? = some l[i] := List.getElem?_eq_getElem h
    have hgl : l[l.length - 1]? = some l[l.length - 1] :=
      List.getElem?_eq_getElem hlast
    rw [listSwap_eq l i (l.length - 1) l[i] l[l.length - 1] hgi hgl]
    refine Prod.ext ?_ ?_
    · exact hgi
    · show ((l.set i l[l.length - 1]).set (l.length - 1) l[i]).dropLast =
        l.dropLast.set i (l.getLastD 0)
      rw [dropLast_set, dropLast_set]
      have hdl : (l.dropLast.set i l[l.length - 1]).set (l.length - 1) l[i]
          = l.dropLast.set i l[l.length - 1] := by
        apply List.set_eq_of_length_le
        rw [List.length_set, List.length_dropLast]
      rw [hdl]
      congr 1
      rw [List.getLastD_eq_getLast?, List.getLast?_eq_getElem?,
        List.getElem?_eq_getElem hlast]
      rfl
  · rw [if_neg h, dif_neg h]

theorem nevInsertStable_eq (l : List Entity) (i : Nat) (e : Entity) :
    nevInsertStable l i e = modelInsertStable l i e := by
  unfold nevInsertStable modelInsertStable
  by_cases h : i < l.length
  · rw [if_pos h, if_pos (by omega)]
  · by_cases h2 : i = l.length
    · subst h2
      rw [if_neg h, if_pos (by omega), List.insertIdx_length_self]
    · rw [if_neg h, if_neg (by omega)]

theorem nevRemoveAtStable_eq (l : List Entity) (i : Nat) :
    nevRemoveAtStable l i = modelRemoveAtStable l i := by
  unfold nevRemoveAtStable modelRemoveAtStable
  by_cases h : i < l.length
  · rw [if_pos h]
  · rw [if_neg h]
    refine Prod.ext ?_ ?_
    · simp [List.getElem?_eq_none (by omega : l.length ≤ i)]
    · show l = l.eraseIdx i
      exact (List.eraseIdx_eq_self.2 (by omega)).symm

theorem length_takeWhile_le_length (p : Entity → Bool) (l : List Entity) :
    (l.takeWhile p).length ≤ l.length := by
  induction l with
  | nil => simp
  | cons x xs ih =>
    rw [List.takeWhile_cons]
    by_cases h : p x
    · simp only [h, if_pos]
      simpa using ih
    · simp only [h, Bool.false_eq_true, if_neg, not_false_iff]
      simp

theorem insertIdx_takeWhile (p : Entity → Bool) (e : Entity) (l : List Entity) :
    List.insertIdx (l.takeWhile p).length e l =
      l.takeWhile p ++ e :: l.dropWhile p := by
  induction l with
  | nil => rfl
  | cons x xs ih =>
    rw [List.takeWhile_cons, List.dropWhile_cons]
    by_cases h : p x
    · simp only [h, if_pos]
      rw [List.length_cons, List.insertIdx_succ_cons, ih]
      rfl
    · simp only [h, Bool.false_eq_true, if_neg, not_false_iff]
      rfl

theorem takeWhile_getD_true (p : Entity → Bool) (l : List Entity) :
    ∀ i, i < (l.takeWhile p).length → p (l.getD i 0) = true := by
  induction l with
  | nil =>
    intro i h
    simp at h
  | cons x xs ih =>
    intro i h
    rw [List.takeWhile_cons] at h
    by_cases hp : p x = true
    · rw [if_pos hp] at h
      cases i with
      | zero => simpa using hp
      | succ j =>
        rw [List.getD_cons_succ]
        exact ih j (by simpa using h)
    · rw [if_neg hp] at h
      simp at h

theorem takeWhile_getD_false (p : Entity → Bool) (l : List Entity) :
    (l.takeWhile p).length < l.length →
      p (l.getD (l.takeWhile p).length 0) = false := by
  induction l with
  | nil =>
    intro h
    simp at h
  | cons x xs ih =>
    intro h
    rw [List.takeWhile_cons] at h ⊢
    by_cases hp : p x = true
    · rw [if_pos hp] at h ⊢
      rw [List.length_cons, List.getD_cons_succ]
      exact ih (by simpa using h)
    · rw [if_neg hp] at h ⊢
      rw [List.length_nil, List.getD_cons_zero]
      exact Bool.not_eq_true (p x) ▸ hp

theorem sorted_getD_le (l : List Entity)
    (hs : l.Sorted (fun a b => a ≤ b)) :
    ∀ i j, i ≤ j → j < l.length → l.getD i 0 ≤ l.getD j 0 := by
  intro i j hij hj
  rcases Nat.eq_or_lt_of_le hij with rfl | hlt
  · exact le_refl _
  · have hi : i < l.length := by omega
    have hrel := List.pairwise_iff_getElem.1 hs i j hi hj hlt
    rw [List.getD_eq_getElem l 0 hi, List.getD_eq_getElem l 0 hj]
    exact hrel

theorem partitionPointGo_eq (pred : Entity → Bool) (l : List Entity) (k : Nat)
    (htrue : ∀ i, i < k → i < l.length → pred (l.getD i 0) = true)
    (hfalse : ∀ i, k ≤ i → i < l.length → pred (l.getD i 0) = false) :
    ∀ fuel left right, right - left ≤ fuel → left ≤ k → k ≤ right →
      right ≤ l.length → partitionPointGo pred l fuel left right = k := by
  intro fuel
  induction fuel with
  | zero =>
    intro left right h1 h2 h3 h4
    simp only [partitionPointGo]
    omega
  | succ n ih =>
    intro left right h1 h2 h3 h4
    simp only [partitionPointGo]
    by_cases hlr : left < right
    · rw [if_pos hlr]
      by_cases hp : pred (l.getD (left + (right - left) / 2) 0) = true
      · rw [if_pos hp]
        have hmk : left + (right - left) / 2 < k := by
          by_contra hge
          push_neg at hge
          have hf := hfalse (left + (right - left) / 2) hge (by omega)
          rw [hp] at hf
          exact Bool.noConfusion hf
        exact ih (left + (right - left) / 2 + 1) right (by omega) (by omega)
          h3 h4
      · rw [if_neg hp]
        have hkm : k ≤ left + (right - left) / 2 := by
          by_contra hlt
          push_neg at hlt
          exact hp (htrue (left + (right - left) / 2) hlt (by omega))
        exact ih left (left + (right - left) / 2) (by omega) h2 hkm (by omega)
    · rw [if_neg hlr]
      omega

theorem partitionPoint_sorted (l : List Entity) (e : Entity)
    (hs : l.Sorted (fun a b => a ≤ b)) :
    partitionPoint (fun x => x ≤ e) l
      = (l.takeWhile (fun x => x ≤ e)).length := by
  have hk := length_takeWhile_le_length (fun x => x ≤ e) l
  apply partitionPointGo_eq
  · intro i hik _
    exact takeWhile_getD_true (fun x => x ≤ e) l i hik
  · intro i hki hil
    have hkl : (l.takeWhile (fun x => x ≤ e)).length < l.length := by omega
    have hfk := takeWhile_getD_false (fun x => x ≤ e) l hkl
    have hle := sorted_getD_le l hs _ i hki hil
    simp only [decide_eq_false_iff_not, not_le] at hfk
    show decide (l.getD i 0 ≤ e) = false
    simp only [decide_eq_false_iff_not, not_le]
    exact lt_of_lt_of_le hfk hle
  · omega
  · omega
  · exact hk
  · omega

theorem nevInsertSorted_sorted_eq (l : List Entity) (e : Entity)
    (hs : l.Sorted (fun a b => a ≤ b)) :
    nevInsertSorted l e = modelInsertSorted l e := by
  unfold nevInsertSorted modelInsertSorted
  have hle := length_takeWhile_le_length (fun x => x ≤ e) l
  rw [partitionPoint_sorted l e hs, nevInsertStable_eq]
  unfold modelInsertStable
  rw [if_pos hle, insertIdx_takeWhile]

theorem mem_of_positionOf (l : List Entity) (e : Entity) :
    ∀ i, positionOf l e = some i → e ∈ l := by
  induction l with
  | nil =>
    intro i h
    simp [positionOf] at h
  | cons x xs ih =>
    intro i h
    by_cases hx : x = e
    · simp [hx]
    · simp only [positionOf] at h
      rw [if_neg hx] at h
      cases hp : positionOf xs e with
      | none => rw [hp] at h; simp at h
      | some j => exact List.mem_cons_of_mem x (ih j hp)

theorem positionOf_none_iff (l : List Entity) (e : Entity) :
    positionOf l e = none ↔ e ∉ l := by
  induction l with
  | nil => simp [positionOf]
  | cons x xs ih =>
    by_cases hx : x = e
    · simp [positionOf, hx]
    · simp only [positionOf, List.mem_cons]
      rw [if_neg hx]
      cases hp : positionOf xs e with
      | none =>
        have hne : e ∉ xs := ih.1 hp
        simp only [Option.map_none']
        constructor
        · intro _ hmem
          rcases hmem with h1 | h2
          · exact hx h1.symm
          · exact hne h2
        · intro _
          trivial
      | some j =>
        simp only [Option.map_some']
        constructor
        · intro h
          exact Option.noConfusion h
        · intro h
          exact absurd (Or.inr (mem_of_positionOf xs e j hp)) h

theorem eraseIdx_positionOf (l : List Entity) (e : Entity) (i : Nat)
    (h : positionOf l e = some i) : l.eraseIdx i = l.erase e := by
  induction l generalizing i with
  | nil => simp [positionOf] at h
  | cons x xs ih =>
    by_cases hx : x = e
    · simp only [positionOf] at h
      rw [if_pos hx] at h
      cases h
      rw [List.erase_cons, if_pos (by simp [hx])]
      rfl
    · simp only [positionOf] at h
      rw [if_neg hx] at h
      cases hp : positionOf xs e with
      | none => rw [hp] at h; simp at h
      | some j =>
        rw [hp] at h
        simp only [Option.map_some', Option.some.injEq] at h
        subst h
        rw [List.eraseIdx_cons_succ, List.erase_cons,
          if_neg (by simp [hx]), ih j hp]

theorem nevPlace_eq (l : List Entity) (e : Entity) (i : Nat) :
    nevPlace l e i = modelPlace l e i := by
  unfold nevPlace modelPlace
  cases hp : positionOf l e with
  | none =>
    show l = if l.contains e
      then modelInsertSwap (l.erase e) (min i l.length) e else l
    rw [if_neg (by simpa using (positionOf_none_iff l e).1 hp)]
  | some cur =>
    show nevInsert (l.eraseIdx cur) (min i l.length) e = if l.contains e
      then modelInsertSwap (l.erase e) (min i l.length) e else l
    rw [if_pos (by simpa using mem_of_positionOf l e cur hp)]
    rw [nevInsert_eq, eraseIdx_positionOf l e cur hp]

theorem modelRemove_eq_erase (l : List Entity) (e : Entity) :
    modelRemove l e = l.erase e := by
  induction l with
  | nil => rfl
  | cons x xs ih =>
    rw [List.erase_cons]
    by_cases hx : x = e
    · simp [modelRemove, hx]
    · simp only [modelRemove, hx, ite_false, if_neg (by simp [hx] : ¬(x == e) = true)]
      rw [ih]

theorem nevPlaceMostRecent_eq (l : List Entity) (i : Nat) :
    nevPlaceMostRecent l i = modelPlaceMostRecent l i := by
  unfold nevPlaceMostRecent modelPlaceMostRecent
  cases l.getLast? with
  | none => rfl
  | some x =>
    show nevInsert l.dropLast (min i l.dropLast.length) x
      = modelInsertSwap l.dropLast (min i (l.length - 1)) x
    rw [nevInsert_eq, List.length_dropLast]

theorem nevApply_eq_of_not_insertSorted (l : List Entity) (op : NevOp)
    (hop : ∀ e, op ≠ NevOp.insertSorted e) :
    nevApply l op = modelApply l op := by
  cases op with
  | add e => rfl
  | remove e => exact nevRemove_eq l e
  | insertSwap i e => exact nevInsert_eq l i e
  | removeAtSwap i => exact congrArg Prod.snd (nevRemoveAt_eq l i)
  | insertStable i e => exact nevInsertStable_eq l i e
  | removeAtStable i => exact congrArg Prod.snd (nevRemoveAtStable_eq l i)
  | extendAll es => rfl
  | clearAll => rfl
  | shrink => rfl
  | sortAll => rfl
  | insertSorted e => exact absurd rfl (hop e)
  | place e i => exact nevPlace_eq l e i
  | placeMostRecent i => exact nevPlaceMostRecent_eq l i

theorem foldl_apply_eq_of_not_insertSorted (ops : List NevOp)
    (hops : ∀ e, NevOp.insertSorted e ∉ ops) :
    ∀ l, ops.foldl nevApply l = ops.foldl modelApply l := by
  induction ops with
  | nil =>
    intro l
    rfl
  | cons op rest ih =>
    intro l
    rw [List.foldl_cons, List.foldl_cons,
      nevApply_eq_of_not_insertSorted l op (fun e he => hops e (by
        rw [← he]
        exact List.mem_cons_self op rest)),
      ih (fun e he => hops e (List.mem_cons_of_mem op he))]

theorem modelInsertSorted_cons_le (l : List Entity) (e x : Entity)
    (hx : x ≤ e) :
    modelInsertSorted (x :: l) e = x :: modelInsertSorted l e := by
  unfold modelInsertSorted
  rw [List.takeWhile_cons, List.dropWhile_cons,
    if_pos (by simpa using hx), if_pos (by simpa using hx)]
  rfl

theorem modelInsertSorted_cons_gt (l : List Entity) (e x : Entity)
    (hx : ¬x ≤ e) :
    modelInsertSorted (x :: l) e = e :: x :: l := by
  unfold modelInsertSorted
  rw [List.takeWhile_cons, List.dropWhile_cons,
    if_neg (by simpa using hx), if_neg (by simpa using hx)]
  rfl

theorem modelInsertSorted_all_ge (l : List Entity) (e : Entity)
    (h : ∀ y ∈ l, e ≤ y) : modelInsertSorted l e = e :: l := by
  induction l with
  | nil => rfl
  | cons y ys ih =>
    by_cases hy : y ≤ e
    · have hye : y = e := Nat.le_antisymm hy (h y (by simp))
      rw [modelInsertSorted_cons_le ys e y hy,
        ih (fun z hz => h z (by simp [hz])), hye]
    · exact modelInsertSorted_cons_gt ys e y hy

theorem modelInsertSorted_eq_orderedInsert (l : List Entity) (e : Entity)
    (hs : l.Sorted (fun a b => a ≤ b)) :
    modelInsertSorted l e = List.orderedInsert (fun a b => a ≤ b) e l := by
  induction l with
  | nil => rfl
  | cons x xs ih =>
    have hs2 : xs.Sorted (fun a b => a ≤ b) := hs.of_cons
    have hall : ∀ y ∈ xs, x ≤ y := List.rel_of_sorted_cons hs
    simp only [List.orderedInsert]
    by_cases hx : x ≤ e
    · rw [modelInsertSorted_cons_le xs e x hx]
      by_cases hex : e ≤ x
      · have hxe : x = e := Nat.le_antisymm hx hex
        rw [if_pos hex,
          modelInsertSorted_all_ge xs e (fun y hy => hxe ▸ hall y hy), hxe]
      · rw [if_neg hex, ih hs2]
    · rw [if_pos (le_of_not_le hx), modelInsertSorted_cons_gt xs e x hx]

theorem nevInsertSorted_sorted (l : List Entity) (e : Entity)
    (hs : l.Sorted (fun a b => a ≤ b)) :
    (nevInsertSorted l e).Sorted (fun a b => a ≤ b) := by
  haveI htot : IsTotal Entity (fun a b => a ≤ b) := ⟨fun a b => Nat.le_total a b⟩
  haveI htr : IsTrans Entity (fun a b => a ≤ b) :=
    ⟨fun a b c hab hbc => Nat.le_trans hab hbc⟩
  rw [nevInsertSorted_sorted_eq l e hs, modelInsertSorted_eq_orderedInsert l e hs]
  exact List.Sorted.orderedInsert e l hs

theorem modelInsertSwap_getElem (l : List Entity) (j : Nat) (e : Entity) :
    (modelInsertSwap l j e)[min j l.length]? = some e := by
  unfold modelInsertSwap
  by_cases h : j < l.length
  · rw [dif_pos h]
    have hmin : min j l.length = j := by omega
    rw [hmin, List.getElem?_append_left (by rw [List.length_set]; omega),
      List.getElem?_set, if_pos rfl, if_pos h]
  · rw [dif_neg h]
    have hmin : min j l.length = l.length := by omega
    rw [hmin, List.getElem?_concat_length]

/-!
## Theorems for the collection claims
-/

/-- Claim C8: for every sequence of `NeverEmptyVec` operations (add, remove,
indexed insert/remove in swap and stable variants, extend, clear, sort,
insert_sorted, place, place_most_recent) applied to the initially empty
collection, `is_empty` returns `false` — including on the empty collection
and immediately after removing the last element, since `is_empty` ignores
its state entirely. -/
theorem nev_is_empty_always_false (ops : List NevOp) :
    nevIsEmpty (nevRunOps ops) = false := rfl

/-- Claim C9 counterexample: on the reachable unsorted sequence
`[add 5, add 1, insert_sorted 3]` the source's binary-search
`partition_point` probes index 1 (value 1, predicate true) and returns 2, so
`insert_stable` appends and the collection iterates as `[5, 1, 3]`; every
linear reading of the model's "insert keeping sorted order" — insertion
after the leading elements at most 3, or Mathlib's ordered insertion —
yields `[3, 5, 1]`.  The iteration orders differ, refuting the claim's
quantification over every operation sequence. -/
theorem insert_sorted_unsorted_divergence_cex :
    nevRunOps [NevOp.add 5, NevOp.add 1, NevOp.insertSorted 3] = [5, 1, 3]
    ∧ modelRunOps [NevOp.add 5, NevOp.add 1, NevOp.insertSorted 3] = [3, 5, 1]
    ∧ List.orderedInsert (fun a b => a ≤ b) 3 [5, 1] = [3, 5, 1]
    ∧ nevRunOps [NevOp.add 5, NevOp.add 1, NevOp.insertSorted 3]
      ≠ modelRunOps [NevOp.add 5, NevOp.add 1, NevOp.insertSorted 3] := by
  refine ⟨by decide, by decide, by decide, by decide⟩

/-- Claim C9 (amended): every `NeverEmptyVec` operation other than
`insert_sorted` agrees with the reference dynamic-array model on every state,
pointwise and over every operation sequence (hence `len` and the iteration
order agree); `insert_sorted` agrees with the model — it equals ordered
insertion and keeps the collection sorted — exactly on sorted collections,
its contracted domain, while on unsorted states its binary-search partition
point may diverge from any linear insertion model; the emptiness query is the
other exception, answering `false` where the model's list is truly empty. -/
theorem nev_refines_dynamic_array_model :
    (∀ l op, (∀ e, op ≠ NevOp.insertSorted e) →
      nevApply l op = modelApply l op)
    ∧ (∀ l e, l.Sorted (fun a b => a ≤ b) →
        nevInsertSorted l e = modelInsertSorted l e
        ∧ nevInsertSorted l e = List.orderedInsert (fun a b => a ≤ b) e l
        ∧ (nevInsertSorted l e).Sorted (fun a b => a ≤ b))
    ∧ (∀ ops, (∀ e, NevOp.insertSorted e ∉ ops) →
        nevRunOps ops = modelRunOps ops
        ∧ nevLen (nevRunOps ops) = (modelRunOps ops).length)
    ∧ (nevIsEmpty (nevRunOps []) = false ∧ (modelRunOps []).isEmpty = true) := by
  refine ⟨nevApply_eq_of_not_insertSorted,
    fun l e hs => ⟨nevInsertSorted_sorted_eq l e hs,
      (nevInsertSorted_sorted_eq l e hs).trans
        (modelInsertSorted_eq_orderedInsert l e hs),
      nevInsertSorted_sorted l e hs⟩,
    fun ops hops => ⟨foldl_apply_eq_of_not_insertSorted ops hops [], ?_⟩,
    rfl, rfl⟩
  show (nevRunOps ops).length = (modelRunOps ops).length
  rw [nevRunOps, modelRunOps, foldl_apply_eq_of_not_insertSorted ops hops []]

/-- Witness for claim C9: the pointwise conjunct at a swap remove, the sorted
`insert_sorted` contract at `[1, 3]`, and the sequence conjunct at
`[add 4, remove 4]`. -/
theorem nev_refines_dynamic_array_model_witness :
    nevApply [9] (NevOp.removeAtSwap 0) = modelApply [9] (NevOp.removeAtSwap 0)
    ∧ nevInsertSorted [1, 3] 2 = modelInsertSorted [1, 3] 2
    ∧ nevInsertSorted [1, 3] 2 = List.orderedInsert (fun a b => a ≤ b) 2 [1, 3]
    ∧ (nevInsertSorted [1, 3] 2).Sorted (fun a b => a ≤ b)
    ∧ nevRunOps [NevOp.add 4, NevOp.remove 4]
      = modelRunOps [NevOp.add 4, NevOp.remove 4] := by
  have h2 := nev_refines_dynamic_array_model.2.1 [1, 3] 2 (by decide)
  refine ⟨nev_refines_dynamic_array_model.1 [9] (NevOp.removeAtSwap 0)
      (fun e h => NevOp.noConfusion h),
    h2.1, h2.2.1, h2.2.2,
    (nev_refines_dynamic_array_model.2.2.1 [NevOp.add 4, NevOp.remove 4]
      (by intro e h; simp at h)).1⟩

/-- Claim C10: every indexed `NeverEmptyVec` operation is total: out-of-range
`remove_at`/`remove_at_stable` return `none` and change nothing, out-of-range
`insert`/`insert_stable` append, `place` on an absent entity changes nothing,
and `place`/`place_most_recent` put the moved element at the index clamped to
the valid range.  Every embedded operation is a total function, so no index
panics. -/
theorem nev_indexed_ops_total (l : List Entity) (i : Nat) (e : Entity) :
    (l.length ≤ i →
      nevRemoveAt l i = (none, l) ∧ nevRemoveAtStable l i = (none, l)
      ∧ nevInsert l i e = l ++ [e] ∧ nevInsertStable l i e = l ++ [e])
    ∧ (e ∉ l → nevPlace l e i = l)
    ∧ (e ∈ l → (nevPlace l e i)[min i (l.length - 1)]? = some e)
    ∧ (l ≠ [] →
      (nevPlaceMostRecent l i)[min i (l.length - 1)]? = l.getLast?) := by
  refine ⟨?_, ?_, ?_, ?_⟩
  · intro hle
    refine ⟨?_, ?_, ?_, ?_⟩
    · unfold nevRemoveAt
      rw [if_neg (by omega)]
    · unfold nevRemoveAtStable
      rw [if_neg (by omega)]
    · rw [nevInsert_eq]
      unfold modelInsertSwap
      rw [dif_neg (by omega)]
    · unfold nevInsertStable
      rw [if_neg (by omega)]
  · intro hmem
    rw [nevPlace_eq]
    unfold modelPlace
    rw [if_neg (by simpa using hmem)]
  · intro hmem
    rw [nevPlace_eq]
    unfold modelPlace
    rw [if_pos (by simpa using hmem)]
    have hpos : 0 < l.length := List.length_pos.2 (List.ne_nil_of_mem hmem)
    have hk := modelInsertSwap_getElem (l.erase e) (min i l.length) e
    rw [List.length_erase_of_mem hmem] at hk
    have hmin : min (min i l.length) (l.length - 1) = min i (l.length - 1) := by
      omega
    rw [hmin] at hk
    exact hk
  · intro hne
    rw [nevPlaceMostRecent_eq]
    unfold modelPlaceMostRecent
    cases hg : l.getLast? with
    | none =>
      exact absurd (by simpa using hg) hne
    | some x =>
      show (modelInsertSwap l.dropLast (min i (l.length - 1)) x)[min i
        (l.length - 1)]? = some x
      have hk := modelInsertSwap_getElem l.dropLast (min i (l.length - 1)) x
      rw [List.length_dropLast] at hk
      have hmin : min (min i (l.length - 1)) (l.length - 1)
          = min i (l.length - 1) := by omega
      rw [hmin] at hk
      exact hk

/-- Witness for claim C10 at concrete inputs. -/
theorem nev_indexed_ops_total_witness :
    nevRemoveAt [4, 5] 7 = (none, [4, 5])
    ∧ nevPlace [4, 5] 9 0 = [4, 5]
    ∧ (nevPlace [4, 5] 5 0)[min 0 ([4, 5].length - 1)]? = some 5
    ∧ (nevPlaceMostRecent [4, 5] 0)[min 0 ([4, 5].length - 1)]?
        = [4, 5].getLast? := by
  refine ⟨((nev_indexed_ops_total [4, 5] 7 0).1 (by decide)).1,
    (nev_indexed_ops_total [4, 5] 9 0).2.1 (by decide),
    (nev_indexed_ops_total [4, 5] 0 5).2.2.1 (by decide),
    (nev_indexed_ops_total [4, 5] 0 5).2.2.2 (by decide)⟩

/-!
## Theorems for the resolution-engine claims
-/

theorem font_handle_changed_nil (w : World) : font_handle_changed w [] = [] := by
  unfold font_handle_changed
  cases w.defaultFont <;> simp

theorem default_font_size_changed_nil (w : World) :
    default_font_size_changed w [] = [] := by
  unfold default_font_size_changed
  cases w.defaultFont <;> simp

theorem default_font_color_changed_nil (w : World) :
    default_font_color_changed w [] = [] := by
  unfold default_font_color_changed
  cases w.defaultFont <;> simp

theorem engineScheduleOnDefaultReplaced_eq (w : World) :
    engineScheduleOnDefaultReplaced w = default_font_changed w := by
  unfold engineScheduleOnDefaultReplaced
  rw [font_handle_changed_nil, default_font_size_changed_nil,
    default_font_color_changed_nil]
  simp

/-- Claim C1 counterexample: in `wDefaultSwap` the `DefaultFont` registry has
just been replaced (no component changed), entity 1 is a `ReactiveFont`
without `UsingFont`, yet the engine schedules only `UpdateFont` for it —
no size and no colour resolution. -/
theorem default_font_replaced_no_size_color_cex :
    wDefaultSwap.reactiveFont 1 = true
    ∧ wDefaultSwap.usingFont 1 = none
    ∧ (1 : Entity) ∈ wDefaultSwap.entities
    ∧ engineScheduleOnDefaultReplaced wDefaultSwap
      = [(1, UpdateEvent.updateFont)]
    ∧ (1, UpdateEvent.updateFontSize) ∉ engineScheduleOnDefaultReplaced wDefaultSwap
    ∧ (1, UpdateEvent.updateFontColor) ∉ engineScheduleOnDefaultReplaced wDefaultSwap := by
  refine ⟨rfl, rfl, by decide, by decide, by decide, by decide⟩

/-- Claim C1 (amended): replacing the `DefaultFont` registry schedules
font-handle resolution — and only font-handle resolution, not size or colour
— for exactly the `ReactiveFont` entities with no explicit `UsingFont`
reference; running the scheduled resolution re-resolves such an entity's
handle to the new default collection's (regular) handle without any direct
mutation of the entity. -/
theorem default_font_replaced_refont_only (w : World) (e c : Entity)
    (tf : TextFontData) (r it b bi : FontHandle) :
    ((e, UpdateEvent.updateFont) ∈ engineScheduleOnDefaultReplaced w ↔
      e ∈ w.entities ∧ w.reactiveFont e = true ∧ w.usingFont e = none)
    ∧ (e, UpdateEvent.updateFontSize) ∉ engineScheduleOnDefaultReplaced w
    ∧ (e, UpdateEvent.updateFontColor) ∉ engineScheduleOnDefaultReplaced w
    ∧ (queryReactiveFontRow w e = .ok (tf, false, false, none) →
      w.defaultFont = some c →
      queryFontCollectionRow w c = .ok (r, it, b, bi) →
      update_font w e = .ok (w.setTextFont e { tf with font := r })) := by
  refine ⟨?_, ?_, ?_, ?_⟩
  · rw [engineScheduleOnDefaultReplaced_eq]
    simp [default_font_changed, reactiveWithoutUsing, List.mem_map,
      List.mem_filter, Option.isNone_iff_eq_none]
  · rw [engineScheduleOnDefaultReplaced_eq]
    simp [default_font_changed, reactiveWithoutUsing]
  · rw [engineScheduleOnDefaultReplaced_eq]
    simp [default_font_changed, reactiveWithoutUsing]
  · intro h1 h2 h3
    have h2e : effectiveFont none w.defaultFont = some c := by
      rw [effectiveFont]
      exact h2
    simp only [update_font, h1, h2e, h3]

/-- Witness for claim C1: in `wDefaultSwap`, the scheduled font resolution
rewrites entity 1's handle to the new default collection's handle 21. -/
theorem default_font_replaced_refont_only_witness :
    update_font wDefaultSwap 1
      = .ok (wDefaultSwap.setTextFont 1 { font := 21, fontSize := 12 }) :=
  (default_font_replaced_refont_only wDefaultSwap 1 3 ⟨0, 12⟩ 21 22 23 24).2.2.2
    rfl rfl rfl

/-- Claim C2 (code bug): entity 1 of `wUntagged` lacks the `ReactiveFont`
tag, yet the engine both schedules it (it sits in collection 2's `UsedBy`,
and `font_handle_changed` triggers every `UsedBy` member without filtering on
`ReactiveFont`) and writes its font handle (`update_font` queries
`(&mut TextFont, Has<Italic>, Has<Bold>, Option<&UsingFont>)` with no
`With<ReactiveFont>` filter) — contradicting the `ReactiveFont` doc comment
that untagged text is never styled. -/
theorem untagged_text_styled_bug :
    wUntagged.reactiveFont 1 = false
    ∧ (1, UpdateEvent.updateFont) ∈ font_handle_changed wUntagged [2]
    ∧ update_font wUntagged 1
      = .ok (wUntagged.setTextFont 1 { font := 5, fontSize := 12 })
    ∧ (wUntagged.setTextFont 1 { font := 5, fontSize := 12 }).textFont 1
      ≠ wUntagged.textFont 1 := by
  refine ⟨rfl, by decide, rfl, by decide⟩

/-- Claim C4: font-handle resolution is a pure function of the (bold, italic)
tag-presence pair: for a text entity with a resolvable collection, the
resolved handle is the collection's bold-italic field when both tags are
present, the italic field when only Italic is present, the bold field when
only Bold is present, and the regular field when neither is present. -/
theorem update_font_selects_handle_by_tags (w : World) (e c : Entity)
    (tf : TextFontData) (ital bold : Bool) (uf : Option Entity)
    (r it b bi : FontHandle)
    (h1 : queryReactiveFontRow w e = .ok (tf, ital, bold, uf))
    (h2 : effectiveFont uf w.defaultFont = some c)
    (h3 : queryFontCollectionRow w c = .ok (r, it, b, bi)) :
    update_font w e = .ok (w.setTextFont e { tf with font :=
      match ital, bold with
      | true, true => bi
      | true, false => it
      | false, true => b
      | false, false => r }) := by
  simp only [update_font, h1, h2, h3]
  cases ital <;> cases bold <;> rfl

/-- Witness for claim C4: both tags present select the bold-italic handle. -/
theorem update_font_selects_handle_by_tags_witness :
    update_font wStyled 1 = .ok (wStyled.setTextFont 1 { font := 8, fontSize := 12 }) :=
  update_font_selects_handle_by_tags wStyled 1 2 ⟨0, 12⟩ true true (some 2)
    5 6 7 8 rfl rfl rfl

/-- Claim C5: with a resolvable collection, an explicit `FontSize(s)` override
makes size resolution write exactly `s` regardless of the collection's
default, and without an override the resolved size is the effective
collection's default size (explicit `UsingFont` reference, else the global
default, via `effectiveFont`); symmetrically for `FontColor` against the
collection's default colour. -/
theorem size_color_override_precedence :
    (∀ w e c tf s uf d, querySizeRow w e = .ok (tf, some s, uf) →
      effectiveFont uf w.defaultFont = some c →
      queryDefaultSizeRow w c = .ok d →
      update_font_size w e = .ok (w.setTextFont e { tf with fontSize := s }))
    ∧ (∀ w e c tf uf d, querySizeRow w e = .ok (tf, none, uf) →
      effectiveFont uf w.defaultFont = some c →
      queryDefaultSizeRow w c = .ok d →
      update_font_size w e = .ok (w.setTextFont e { tf with fontSize := d }))
    ∧ (∀ w e c c0 s uf d, queryColorRow w e = .ok (c0, some s, uf) →
      effectiveFont uf w.defaultFont = some c →
      queryDefaultColorRow w c = .ok d →
      update_font_color w e = .ok (w.setTextColor e s))
    ∧ (∀ w e c c0 uf d, queryColorRow w e = .ok (c0, none, uf) →
      effectiveFont uf w.defaultFont = some c →
      queryDefaultColorRow w c = .ok d →
      update_font_color w e = .ok (w.setTextColor e d)) := by
  refine ⟨?_, ?_, ?_, ?_⟩
  · intro w e c tf s uf d h1 h2 h3
    simp only [update_font_size, h1, h2, h3]
    rfl
  · intro w e c tf uf d h1 h2 h3
    simp only [update_font_size, h1, h2, h3]
    rfl
  · intro w e c c0 s uf d h1 h2 h3
    simp only [update_font_color, h1, h2, h3]
    rfl
  · intro w e c c0 uf d h1 h2 h3
    simp only [update_font_color, h1, h2, h3]
    rfl

/-- Witness for claim C5: entity 1 of `wStyled` has overrides `25`/`4`, which
win over the collection defaults `20`/`9`; entity 1 of `wDefaultSwap` has no
overrides and receives the default collection's defaults `30`/`9`. -/
theorem size_color_override_precedence_witness :
    update_font_size wStyled 1 = .ok (wStyled.setTextFont 1 { font := 0, fontSize := 25 })
    ∧ update_font_size wDefaultSwap 1
      = .ok (wDefaultSwap.setTextFont 1 { font := 0, fontSize := 30 })
    ∧ update_font_color wStyled 1 = .ok (wStyled.setTextColor 1 4)
    ∧ update_font_color wDefaultSwap 1 = .ok (wDefaultSwap.setTextColor 1 9) :=
  ⟨size_color_override_precedence.1 wStyled 1 2 ⟨0, 12⟩ 25 (some 2) 20 rfl rfl rfl,
    size_color_override_precedence.2.1 wDefaultSwap 1 3 ⟨0, 12⟩ none 30 rfl rfl rfl,
    size_color_override_precedence.2.2.1 wStyled 1 2 3 4 (some 2) 9 rfl rfl rfl,
    size_color_override_precedence.2.2.2 wDefaultSwap 1 3 0 none 9 rfl rfl rfl⟩

end BevyReactiveFont
